import Mathlib

/-!
Verification of the topic taxonomy consolidation engine of the
AI-App-review-analyzer repository (`src/topic_consolidator.py`).

The Python class `TopicConsolidator` holds two pieces of mutable state:
`topic_mapping` (a dict from raw topic strings to canonical topic strings,
insertion ordered) and `canonical_topics` (a set of canonical topic names).
Its public operations are `consolidate_topics` (which may call the Gemini
model, the "Semantic Matcher" oracle) and `apply_mapping` (pure rewriting of
extraction records).

We embed the state as explicit values: Python dicts become association lists
with Python's assignment semantics (replace-in-place on an existing key,
append otherwise), Python sets become lists with membership-guarded insert.
The generative-model oracle is an explicit parameter: for the bootstrap
prompt it yields the JSON object parsed by `json.loads` (or `none` when the
request or the parse raises, which the Python code catches), and for the
single-topic prompt it yields the raw `response.text` (or `none` on an
exception).  Since `json.loads` can never produce an object with duplicate
keys, well-formed oracles return key-unique dicts.
-/

set_option autoImplicit false

namespace ReviewAnalyzer

/-- A Python `dict` whose keys and values are strings, as an insertion
ordered association list with unique keys. -/
abbrev Dict := List (String × String)

/-- A Python `set` of strings, as the list of its elements. -/
abbrev SSet := List String

/-- Python dict lookup `d[key]` / `d.get(key)`: the value stored at `key`. -/
def alookup : Dict → String → Option String
  | [], _ => none
  | (k, v) :: rest, key => if k = key then some v else alookup rest key

/-- Python dict assignment `d[key] = val`: replace the value in place when
the key is present, append the pair otherwise. -/
def ainsert (key val : String) : Dict → Dict
  | [] => [(key, val)]
  | (k, v) :: rest =>
      if k = key then (key, val) :: rest else (k, v) :: ainsert key val rest

/-- The keys of a dict, in insertion order. -/
def dkeys (d : Dict) : List String := d.map Prod.fst

/-- The values of a dict, in insertion order. -/
def dvalues (d : Dict) : List String := d.map Prod.snd

/-- A dict is well formed when no key occurs twice (always true of a Python
dict, in particular of anything produced by `json.loads`). -/
def NodupKeys (d : Dict) : Prop := (dkeys d).Nodup

/-- Python set insertion `s.add(v)`. -/
def sinsert (v : String) (s : SSet) : SSet := if v ∈ s then s else v :: s

/-- The mutable state of a `TopicConsolidator` instance: `topic_mapping`
maps variant topics to canonical topics, `canonical_topics` is the set of
canonical topic names.  Both start empty in `__init__`. -/
structure TopicConsolidator where
  topic_mapping : Dict
  canonical_topics : SSet
deriving DecidableEq

/-- The freshly constructed consolidator: both containers empty. -/
def initState : TopicConsolidator := ⟨[], []⟩

/-- Python's `str.strip(chars)`: drop characters satisfying `p` from both
ends of the string. -/
def pyStripChars (p : Char → Bool) (s : String) : String :=
  (((s.toList.dropWhile p).reverse.dropWhile p).reverse).asString

/-- Python `str.strip()` whitespace set. -/
def isPySpace (c : Char) : Bool :=
  c = ' ' || c = '\t' || c = '\n' || c = '\r' || c = '\x0b' || c = '\x0c'

/-- The characters removed by `.strip('"\'')`. -/
def isQuoteChar (c : Char) : Bool := c = '"' || c = '\x27'

/-- The cleaning `response.text.strip().strip('"\'')` performed in
`_find_canonical_topic`. -/
def cleanResponse (s : String) : String :=
  pyStripChars isQuoteChar (pyStripChars isPySpace s)

/-- The Semantic Matcher oracle (the Gemini model behind the two prompts).
`initial` answers the whole-batch taxonomy prompt of
`_create_initial_taxonomy` with the dict parsed from its JSON response
(`none` models any exception, including a parse failure).  `find` answers
the single-topic prompt of `_find_canonical_topic`, which depends on the
new topic and on the current list of canonical topics, with the raw
response text (`none` models an exception). -/
structure Oracle where
  initial : List String → Option Dict
  find : String → SSet → Option String

/-- Well-formed oracle: a successfully parsed JSON object has unique keys. -/
def WFOracle (o : Oracle) : Prop :=
  ∀ ts d, o.initial ts = some d → NodupKeys d

/-- Embedding of `TopicConsolidator._create_initial_taxonomy`: on an empty topic list
return `{}`; on a model exception (or parse error) return the identity
mapping `{topic: topic for topic in topics}`; otherwise return the parsed
response dict unvalidated. -/
def create_initial_taxonomy (resp : Option Dict) (topics : List String) :
    Dict :=
  if topics.isEmpty then []
  else
    match resp with
    | some mapping => mapping
    | none => topics.foldl (fun d t => ainsert t t d) []

/-- Embedding of `TopicConsolidator._find_canonical_topic`: with no canonical topics
return the new topic without consulting the model; otherwise clean the
model's answer and keep it only when it is an existing canonical topic or
exactly the new topic, falling back to the new topic on an exception or an
unexpected answer. -/
def find_canonical_topic (canonical_topics : SSet) (resp : Option String)
    (new_topic : String) : String :=
  if canonical_topics.isEmpty then new_topic
  else
    match resp with
    | none => new_topic
    | some text =>
        let canonical := cleanResponse text
        if canonical ∈ canonical_topics ∨ canonical = new_topic then canonical
        else new_topic

/-- Embedding of `TopicConsolidator._update_taxonomy`: record every pair of `mapping`
into `topic_mapping` and every canonical value into `canonical_topics`,
iterating in insertion order. -/
def update_taxonomy (st : TopicConsolidator) (mapping : Dict) :
    TopicConsolidator :=
  mapping.foldl
    (fun s kv =>
      { topic_mapping := ainsert kv.1 kv.2 s.topic_mapping
        canonical_topics := sinsert kv.2 s.canonical_topics })
    st

/-- The outcome of one `consolidate_topics` call: the updated state, the
returned mapping, the list of topics for which the single-topic matcher
prompt was issued, and whether the whole-batch bootstrap prompt was
issued. -/
structure ConsolidateResult where
  state : TopicConsolidator
  mapping : Dict
  findCalls : List String
  initialCalled : Bool

/-- One iteration of the incremental loop of `consolidate_topics`: reuse
the recorded canonical value for an already-mapped topic (no matcher
call), otherwise ask the matcher and record the result in the state and in
the returned mapping. -/
def incStep (o : Oracle) (acc : ConsolidateResult) (topic : String) :
    ConsolidateResult :=
  match alookup acc.state.topic_mapping topic with
  | some c => { acc with mapping := ainsert topic c acc.mapping }
  | none =>
      let canonical := find_canonical_topic acc.state.canonical_topics
        (o.find topic acc.state.canonical_topics) topic
      { state :=
          { topic_mapping := ainsert topic canonical acc.state.topic_mapping
            canonical_topics := sinsert canonical acc.state.canonical_topics }
        mapping := ainsert topic canonical acc.mapping
        findCalls := acc.findCalls ++
          (if acc.state.canonical_topics.isEmpty then [] else [topic])
        initialCalled := acc.initialCalled }

/-- Embedding of `TopicConsolidator.consolidate_topics`: empty batches return `{}` with
no state change and no oracle call; when no canonical topics exist yet the
whole batch is sent to the bootstrap prompt and the (unvalidated) result
recorded; otherwise each topic is processed by the incremental loop.  The
batch is a Python set; the list argument fixes its iteration order. -/
def consolidate_topics (o : Oracle) (st : TopicConsolidator)
    (new_topics : List String) : ConsolidateResult :=
  if new_topics.isEmpty then ⟨st, [], [], false⟩
  else if st.canonical_topics.isEmpty then
    let mapping := create_initial_taxonomy (o.initial new_topics) new_topics
    ⟨update_taxonomy st mapping, mapping, [], true⟩
  else
    new_topics.foldl (incStep o) ⟨st, [], [], false⟩

/-- States reachable by a sequence of `consolidate_topics` calls from the
freshly constructed consolidator, through well-formed oracles (every
parsed JSON object has unique keys, as `json.loads` guarantees). -/
inductive Reachable : TopicConsolidator → Prop
  | init : Reachable initState
  | step (st : TopicConsolidator) (o : Oracle) (batch : List String) :
      WFOracle o → Reachable st →
      Reachable (consolidate_topics o st batch).state

/-- A Python value stored in an extraction-result dict: a string or a list
of topic strings. -/
inductive PyVal where
  | str (s : String)
  | strList (l : List String)
deriving DecidableEq

/-- An extraction-result dict (`review_id`, `topics`, `content`,
`reasoning`, and possibly further keys), as an association list. -/
abbrev Rec := List (String × PyVal)

/-- Lookup in an extraction-result dict. -/
def rlookup : Rec → String → Option PyVal
  | [], _ => none
  | (k, v) :: rest, key => if k = key then some v else rlookup rest key

/-- Python's `self.topic_mapping.get(topic, topic)`. -/
def mapTopic (m : Dict) (t : String) : String := (alookup m t).getD t

/-- The body of the loop of `TopicConsolidator.apply_mapping` for one
record: map every topic through `topic_mapping` (falling back to the raw
topic), and emit a dict with exactly the keys `review_id`, `topics`,
`content`, `reasoning`, the latter two defaulting to `""`.  `none` models
the `KeyError` Python raises when `topics` or `review_id` is missing (the
record's topics are a list of strings, as the Topic Extractor produces). -/
def applyRecord (m : Dict) (r : Rec) : Option Rec :=
  match rlookup r "topics" with
  | some (PyVal.strList ts) =>
      match rlookup r "review_id" with
      | some rid =>
          some [("review_id", rid),
                ("topics", PyVal.strList (ts.map (mapTopic m))),
                ("content", (rlookup r "content").getD (PyVal.str "")),
                ("reasoning", (rlookup r "reasoning").getD (PyVal.str ""))]
      | none => none
  | _ => none

/-- Embedding of `TopicConsolidator.apply_mapping`: rewrite every record in order; an
exception on any record aborts the whole call.  The method reads
`self.topic_mapping` only — it never calls the model and never mutates
`topic_mapping` or `canonical_topics`, which is why its embedding is a
pure function of the mapping and the records. -/
def apply_mapping (m : Dict) : List Rec → Option (List Rec)
  | [] => some []
  | r :: rest =>
      match applyRecord m r, apply_mapping m rest with
      | some r', some rest' => some (r' :: rest')
      | _, _ => none

/-- An extraction record as built by `TopicExtractor.extract_topics_from_batch`:
exactly the keys `review_id`, `topics`, `content`, `reasoning` in that
order, with `topics` a list of strings. -/
def mkExtractionRecord (rid : PyVal) (ts : List String)
    (content reasoning : PyVal) : Rec :=
  [("review_id", rid), ("topics", PyVal.strList ts),
   ("content", content), ("reasoning", reasoning)]

/-- The identity fallback `{topic: topic for topic in topics}` built by
`_create_initial_taxonomy` when the model call raises. -/
def identityMapping (topics : List String) : Dict :=
  topics.foldl (fun d t => ainsert t t d) []

/-- The taxonomy-store invariant relating the two containers: the canonical
topic set consists exactly of the values of the topic mapping. -/
def StInv (st : TopicConsolidator) : Prop :=
  ∀ c, c ∈ st.canonical_topics ↔ c ∈ dvalues st.topic_mapping

/-- A mapping in which every value that also occurs as a key is mapped to
itself.  This is the condition under which `apply_mapping` is
idempotent. -/
abbrev SelfMapped (m : Dict) : Prop :=
  ∀ kv ∈ m, alookup m kv.2 = some kv.2 ∨ alookup m kv.2 = none

/-- An oracle whose calls always raise (network failure). -/
def failingOracle : Oracle := ⟨fun _ => none, fun _ _ => none⟩

/-- An oracle whose bootstrap response is a JSON object whose key does not
occur in the input batch (a hallucinated key). -/
def hallucinatingOracle : Oracle := ⟨fun _ => some [("B", "C")], fun _ _ => none⟩

/-- An oracle whose single-topic response is always the string `"Z"`. -/
def zOracle : Oracle := ⟨fun _ => none, fun _ _ => some "Z"⟩

/-- An oracle whose single-topic response is always the string `"C"`. -/
def matchCOracle : Oracle := ⟨fun _ => none, fun _ _ => some "C"⟩

/-- An oracle whose bootstrap response merges nothing but renames both
topics: `{"A": "B", "D": "C"}`. -/
def bootPairOracle : Oracle :=
  ⟨fun _ => some [("A", "B"), ("D", "C")], fun _ _ => none⟩

/-- The state after a first bootstrap batch `{"A"}` answered by the
hallucinating oracle: `topic_mapping = {"B": "C"}`. -/
def stHallu : TopicConsolidator :=
  (consolidate_topics hallucinatingOracle initState ["A"]).state

/-- The state after a first bootstrap batch `{"A", "D"}` answered with
`{"A": "B", "D": "C"}`. -/
def stBootPair : TopicConsolidator :=
  (consolidate_topics bootPairOracle initState ["A", "D"]).state

/-- The state after a further batch `{"B"}` whose matcher answer is the
existing canonical topic `"C"`: now `"B"` (itself a canonical topic) is a
key mapped to `"C"`. -/
def stChained : TopicConsolidator :=
  (consolidate_topics matchCOracle stBootPair ["B"]).state

/-- The state after a first batch `{"A"}` whose bootstrap call fails:
the identity mapping is recorded, `topic_mapping = {"A": "A"}`. -/
def stIdA : TopicConsolidator :=
  (consolidate_topics failingOracle initState ["A"]).state

/-! ### Basic lemmas about the dict and set embeddings -/

theorem alookup_ainsert (k v : String) (d : Dict) (key : String) :
    alookup (ainsert k v d) key = if k = key then some v else alookup d key := by
  induction d with
  | nil => simp [ainsert, alookup]
  | cons kv rest ih =>
      obtain ⟨k', v'⟩ := kv
      by_cases hk : k' = k
      · subst hk
        by_cases hkey : k' = key <;> simp [ainsert, alookup, hkey]
      · by_cases hkey : k' = key
        · subst hkey
          have hne : ¬ k = k' := fun h => hk h.symm
          simp [ainsert, alookup, hk, hne]
        · simp [ainsert, alookup, hk, hkey, ih]

theorem mem_dkeys_ainsert (k v : String) (d : Dict) (x : String) :
    x ∈ dkeys (ainsert k v d) ↔ x = k ∨ x ∈ dkeys d := by
  induction d with
  | nil => simp [ainsert, dkeys]
  | cons kv rest ih =>
      obtain ⟨k', v'⟩ := kv
      by_cases hk : k' = k
      · subst hk
        simp [ainsert, dkeys]
      · simp [ainsert, dkeys, hk] at ih ⊢
        tauto

theorem mem_ainsert (k v : String) (d : Dict) (kv : String × String) :
    kv ∈ ainsert k v d → kv = (k, v) ∨ kv ∈ d := by
  induction d with
  | nil => simp [ainsert]
  | cons hd rest ih =>
      obtain ⟨k', v'⟩ := hd
      by_cases hk : k' = k
      · subst hk
        simp [ainsert]
        tauto
      · simp [ainsert, hk]
        rintro (h | h)
        · simp [h]
        · rcases ih h with h1 | h2
          · exact Or.inl h1
          · exact Or.inr (Or.inr h2)

theorem nodupKeys_ainsert (k v : String) (d : Dict) (h : NodupKeys d) :
    NodupKeys (ainsert k v d) := by
  induction d with
  | nil => simp [ainsert, NodupKeys, dkeys]
  | cons kv rest ih =>
      obtain ⟨k', v'⟩ := kv
      simp [NodupKeys, dkeys] at h
      by_cases hk : k' = k
      · subst hk
        simpa [ainsert, NodupKeys, dkeys] using h
      · have hrest := ih h.2
        simp [ainsert, NodupKeys, dkeys, hk] at hrest ⊢
        refine ⟨fun x hmem => ?_, hrest⟩
        rcases mem_ainsert k v rest (k', x) hmem with he | hm
        · exact hk (congrArg Prod.fst he)
        · exact h.1 x hm

theorem alookup_eq_none_iff (d : Dict) (key : String) :
    alookup d key = none ↔ key ∉ dkeys d := by
  induction d with
  | nil => simp [alookup, dkeys]
  | cons kv rest ih =>
      obtain ⟨k, v⟩ := kv
      by_cases hk : k = key
      · subst hk
        simp [alookup, dkeys]
      · have hk' : ¬ key = k := fun h => hk h.symm
        simp [alookup, dkeys, hk, hk', ih]

theorem alookup_isSome_of_mem_dkeys (d : Dict) (key : String)
    (h : key ∈ dkeys d) : ∃ v, alookup d key = some v := by
  cases hl : alookup d key with
  | none => exact absurd h ((alookup_eq_none_iff d key).1 hl)
  | some v => exact ⟨v, rfl⟩

theorem mem_of_alookup_eq_some (d : Dict) (key v : String)
    (h : alookup d key = some v) : (key, v) ∈ d := by
  induction d with
  | nil => simp [alookup] at h
  | cons kv rest ih =>
      obtain ⟨k', v'⟩ := kv
      by_cases hk : k' = key
      · subst hk
        simp [alookup] at h
        simp [h]
      · simp [alookup, hk] at h
        simp [ih h]

theorem mem_dvalues_of_alookup (d : Dict) (key v : String)
    (h : alookup d key = some v) : v ∈ dvalues d := by
  have := mem_of_alookup_eq_some d key v h
  exact List.mem_map.2 ⟨(key, v), this, rfl⟩

theorem ainsert_of_not_mem_keys (k v : String) (d : Dict)
    (h : k ∉ dkeys d) : ainsert k v d = d ++ [(k, v)] := by
  induction d with
  | nil => simp [ainsert]
  | cons kv rest ih =>
      obtain ⟨k', v'⟩ := kv
      simp [dkeys] at h
      have hne : ¬ k' = k := fun hh => h.1 hh.symm
      simp [ainsert, hne, ih (by simpa [dkeys] using h.2)]

theorem mem_sinsert (v : String) (s : SSet) (x : String) :
    x ∈ sinsert v s ↔ x = v ∨ x ∈ s := by
  by_cases h : v ∈ s
  · simp [sinsert, h]
    intro hx
    subst hx
    exact h
  · simp [sinsert, h]

theorem mem_sinsert_of_mem (v : String) (s : SSet) (x : String) (h : x ∈ s) :
    x ∈ sinsert v s := (mem_sinsert v s x).2 (Or.inr h)

theorem self_mem_sinsert (v : String) (s : SSet) : v ∈ sinsert v s :=
  (mem_sinsert v s v).2 (Or.inl rfl)

/-! ### Lemmas about `update_taxonomy` and the identity fallback mapping -/

theorem update_taxonomy_nil (st : TopicConsolidator) :
    update_taxonomy st [] = st := rfl

theorem update_taxonomy_cons (st : TopicConsolidator) (kv : String × String)
    (rest : Dict) :
    update_taxonomy st (kv :: rest) =
      update_taxonomy
        ⟨ainsert kv.1 kv.2 st.topic_mapping,
         sinsert kv.2 st.canonical_topics⟩ rest := rfl

theorem mem_canonical_update_taxonomy (d : Dict) :
    ∀ (st : TopicConsolidator) (x : String),
      x ∈ (update_taxonomy st d).canonical_topics ↔
        x ∈ st.canonical_topics ∨ x ∈ dvalues d := by
  induction d with
  | nil => intro st x; simp [update_taxonomy_nil, dvalues]
  | cons kv rest ih =>
      intro st x
      rw [update_taxonomy_cons, ih]
      simp [mem_sinsert, dvalues]
      tauto

theorem update_taxonomy_mapping_of_disjoint (d : Dict) :
    ∀ (st : TopicConsolidator), NodupKeys d →
      (∀ k ∈ dkeys d, k ∉ dkeys st.topic_mapping) →
      (update_taxonomy st d).topic_mapping = st.topic_mapping ++ d := by
  induction d with
  | nil => intro st _ _; simp [update_taxonomy_nil]
  | cons kv rest ih =>
      intro st hnd hdisj
      obtain ⟨k, v⟩ := kv
      rw [update_taxonomy_cons]
      have hk : k ∉ dkeys st.topic_mapping := hdisj k (by simp [dkeys])
      have hnd' : NodupKeys rest := by
        simpa [NodupKeys, dkeys, List.nodup_cons] using
          (by simpa [NodupKeys, dkeys] using hnd : _ ∧ _).2
      have hkrest : k ∉ dkeys rest := by
        have := (by simpa [NodupKeys, dkeys] using hnd : _ ∧ _).1
        intro hkm
        rcases List.mem_map.1 hkm with ⟨p, hp, hfst⟩
        exact this p.2 (by simpa [← hfst] using hp)
      have hdisj' : ∀ k' ∈ dkeys rest, k' ∉ dkeys (ainsert k v st.topic_mapping) := by
        intro k' hk' hmem
        rcases (mem_dkeys_ainsert k v st.topic_mapping k').1 hmem with h1 | h2
        · exact hkrest (h1 ▸ hk')
        · exact hdisj k'
            (show k' ∈ dkeys ((k, v) :: rest) from List.mem_cons_of_mem k hk') h2
      rw [ih _ hnd' hdisj']
      simp [ainsert_of_not_mem_keys k v st.topic_mapping hk]

theorem create_initial_taxonomy_none (topics : List String)
    (h : ¬ topics.isEmpty) :
    create_initial_taxonomy none topics = identityMapping topics := by
  simp [create_initial_taxonomy, identityMapping, h]

theorem create_initial_taxonomy_some (topics : List String) (d : Dict)
    (h : ¬ topics.isEmpty) :
    create_initial_taxonomy (some d) topics = d := by
  simp [create_initial_taxonomy, h]

theorem identityMapping_foldl_lookup (topics : List String) :
    ∀ (d0 : Dict) (k : String),
      alookup (topics.foldl (fun d t => ainsert t t d) d0) k =
        if k ∈ topics then some k else alookup d0 k := by
  induction topics with
  | nil => intro d0 k; simp
  | cons t rest ih =>
      intro d0 k
      rw [List.foldl_cons, ih]
      by_cases hmem : k ∈ rest
      · simp [hmem]
      · by_cases hk : k = t
        · subst hk
          simp [hmem, alookup_ainsert]
        · have : ¬ t = k := fun h => hk h.symm
          simp [hmem, hk, alookup_ainsert, this]

theorem alookup_identityMapping (topics : List String) (k : String) :
    alookup (identityMapping topics) k =
      if k ∈ topics then some k else none := by
  rw [identityMapping, identityMapping_foldl_lookup]
  simp [alookup]

theorem identityMapping_self_pairs (topics : List String) :
    ∀ (d0 : Dict), (∀ kv ∈ d0, kv.1 = kv.2) →
      ∀ kv ∈ topics.foldl (fun d t => ainsert t t d) d0, kv.1 = kv.2 := by
  induction topics with
  | nil => intro d0 h; simpa using h
  | cons t rest ih =>
      intro d0 h kv hkv
      rw [List.foldl_cons] at hkv
      refine ih (ainsert t t d0) ?_ kv hkv
      intro p hp
      rcases mem_ainsert t t d0 p hp with h1 | h2
      · simp [h1]
      · exact h p h2

theorem mem_dkeys_foldl_ainsert (topics : List String) :
    ∀ (d0 : Dict) (k : String),
      k ∈ dkeys (topics.foldl (fun d t => ainsert t t d) d0) ↔
        k ∈ dkeys d0 ∨ k ∈ topics := by
  induction topics with
  | nil => intro d0 k; simp
  | cons t rest ih =>
      intro d0 k
      rw [List.foldl_cons, ih]
      simp [mem_dkeys_ainsert]
      tauto

theorem mem_dvalues_identityMapping (topics : List String) (x : String) :
    x ∈ dvalues (identityMapping topics) ↔ x ∈ topics := by
  constructor
  · intro hx
    rcases List.mem_map.1 hx with ⟨kv, hkv, hsnd⟩
    have hself := identityMapping_self_pairs topics [] (by simp) kv hkv
    have hkey : kv.1 ∈ dkeys (identityMapping topics) :=
      List.mem_map.2 ⟨kv, hkv, rfl⟩
    have := (mem_dkeys_foldl_ainsert topics [] kv.1).1 hkey
    simp [dkeys] at this
    rw [← hsnd, ← hself]
    exact this
  · intro hx
    have hkey : x ∈ dkeys (identityMapping topics) :=
      (mem_dkeys_foldl_ainsert topics [] x).2 (Or.inr hx)
    rcases List.mem_map.1 hkey with ⟨kv, hkv, hfst⟩
    have hself := identityMapping_self_pairs topics [] (by simp) kv hkv
    exact List.mem_map.2 ⟨kv, hkv, by rw [← hself, hfst]⟩

theorem nodupKeys_identityMapping (topics : List String) :
    NodupKeys (identityMapping topics) := by
  rw [identityMapping]
  have : ∀ (d0 : Dict), NodupKeys d0 →
      NodupKeys (topics.foldl (fun d t => ainsert t t d) d0) := by
    induction topics with
    | nil => intro d0 h; simpa using h
    | cons t rest ih =>
        intro d0 h
        rw [List.foldl_cons]
        exact ih _ (nodupKeys_ainsert t t d0 h)
  exact this [] (by simp [NodupKeys, dkeys])

/-! ### Lemmas about the incremental loop of `consolidate_topics` -/

theorem incStep_tm_preserved (o : Oracle) (acc : ConsolidateResult)
    (a k v : String) (h : alookup acc.state.topic_mapping k = some v) :
    alookup (incStep o acc a).state.topic_mapping k = some v := by
  cases hl : alookup acc.state.topic_mapping a with
  | some c => simp [incStep, hl, h]
  | none =>
      by_cases hak : a = k
      · subst hak
        rw [hl] at h
        exact absurd h (by simp)
      · simp [incStep, hl, alookup_ainsert, hak, h]

theorem foldl_tm_preserved (o : Oracle) (l : List String) :
    ∀ (acc : ConsolidateResult) (k v : String),
      alookup acc.state.topic_mapping k = some v →
      alookup (l.foldl (incStep o) acc).state.topic_mapping k = some v := by
  induction l with
  | nil => intro acc k v h; simpa using h
  | cons a rest ih =>
      intro acc k v h
      rw [List.foldl_cons]
      exact ih _ k v (incStep_tm_preserved o acc a k v h)

theorem incStep_canonical_mono (o : Oracle) (acc : ConsolidateResult)
    (a x : String) (h : x ∈ acc.state.canonical_topics) :
    x ∈ (incStep o acc a).state.canonical_topics := by
  cases hl : alookup acc.state.topic_mapping a with
  | some c => simpa [incStep, hl] using h
  | none => simpa [incStep, hl] using mem_sinsert_of_mem _ _ x h

theorem foldl_canonical_mono (o : Oracle) (l : List String) :
    ∀ (acc : ConsolidateResult) (x : String),
      x ∈ acc.state.canonical_topics →
      x ∈ (l.foldl (incStep o) acc).state.canonical_topics := by
  induction l with
  | nil => intro acc x h; simpa using h
  | cons a rest ih =>
      intro acc x h
      rw [List.foldl_cons]
      exact ih _ x (incStep_canonical_mono o acc a x h)

theorem incStep_initialCalled (o : Oracle) (acc : ConsolidateResult)
    (a : String) : (incStep o acc a).initialCalled = acc.initialCalled := by
  cases hl : alookup acc.state.topic_mapping a with
  | some c => simp [incStep, hl]
  | none => simp [incStep, hl]

theorem foldl_initialCalled (o : Oracle) (l : List String) :
    ∀ (acc : ConsolidateResult),
      (l.foldl (incStep o) acc).initialCalled = acc.initialCalled := by
  induction l with
  | nil => intro acc; simp
  | cons a rest ih =>
      intro acc
      rw [List.foldl_cons, ih, incStep_initialCalled]

theorem incStep_mapping_keys (o : Oracle) (acc : ConsolidateResult)
    (a k : String) :
    k ∈ dkeys (incStep o acc a).mapping ↔ k = a ∨ k ∈ dkeys acc.mapping := by
  cases hl : alookup acc.state.topic_mapping a with
  | some c => simp [incStep, hl, mem_dkeys_ainsert]
  | none => simp [incStep, hl, mem_dkeys_ainsert]

theorem foldl_mapping_keys (o : Oracle) (l : List String) :
    ∀ (acc : ConsolidateResult) (k : String),
      k ∈ dkeys (l.foldl (incStep o) acc).mapping ↔
        k ∈ dkeys acc.mapping ∨ k ∈ l := by
  induction l with
  | nil => intro acc k; simp
  | cons a rest ih =>
      intro acc k
      rw [List.foldl_cons, ih, incStep_mapping_keys]
      simp
      tauto

theorem incStep_mapping_nodup (o : Oracle) (acc : ConsolidateResult)
    (a : String) (h : NodupKeys acc.mapping) :
    NodupKeys (incStep o acc a).mapping := by
  cases hl : alookup acc.state.topic_mapping a with
  | some c => simpa [incStep, hl] using nodupKeys_ainsert a c acc.mapping h
  | none => simpa [incStep, hl] using nodupKeys_ainsert a _ acc.mapping h

theorem foldl_mapping_nodup (o : Oracle) (l : List String) :
    ∀ (acc : ConsolidateResult), NodupKeys acc.mapping →
      NodupKeys (l.foldl (incStep o) acc).mapping := by
  induction l with
  | nil => intro acc h; simpa using h
  | cons a rest ih =>
      intro acc h
      rw [List.foldl_cons]
      exact ih _ (incStep_mapping_nodup o acc a h)

theorem incStep_mapping_agrees (o : Oracle) (acc : ConsolidateResult)
    (a : String)
    (h : ∀ k ∈ dkeys acc.mapping,
      alookup acc.mapping k = alookup acc.state.topic_mapping k) :
    ∀ k ∈ dkeys (incStep o acc a).mapping,
      alookup (incStep o acc a).mapping k =
        alookup (incStep o acc a).state.topic_mapping k := by
  intro k hk
  cases hl : alookup acc.state.topic_mapping a with
  | some c =>
      simp [incStep, hl, alookup_ainsert] at hk ⊢
      by_cases hak : a = k
      · subst hak
        simp [hl]
      · rcases (by simpa [incStep, hl, mem_dkeys_ainsert] using hk :
            k = a ∨ k ∈ dkeys acc.mapping) with h1 | h2
        · exact absurd h1.symm hak
        · simp [hak, h k h2]
  | none =>
      simp [incStep, hl, alookup_ainsert] at hk ⊢
      by_cases hak : a = k
      · simp [hak]
      · rcases (by simpa [incStep, hl, mem_dkeys_ainsert] using hk :
            k = a ∨ k ∈ dkeys acc.mapping) with h1 | h2
        · exact absurd h1.symm hak
        · simp [hak, h k h2]

theorem foldl_mapping_agrees (o : Oracle) (l : List String) :
    ∀ (acc : ConsolidateResult),
      (∀ k ∈ dkeys acc.mapping,
        alookup acc.mapping k = alookup acc.state.topic_mapping k) →
      ∀ k ∈ dkeys (l.foldl (incStep o) acc).mapping,
        alookup (l.foldl (incStep o) acc).mapping k =
          alookup (l.foldl (incStep o) acc).state.topic_mapping k := by
  induction l with
  | nil => intro acc h; simpa using h
  | cons a rest ih =>
      intro acc h
      rw [List.foldl_cons]
      exact ih _ (incStep_mapping_agrees o acc a h)

/-! ### Unfolding lemmas for `consolidate_topics` -/

theorem consolidate_topics_empty (o : Oracle) (st : TopicConsolidator)
    (nt : List String) (h : nt.isEmpty) :
    consolidate_topics o st nt = ⟨st, [], [], false⟩ := by
  simp [consolidate_topics, h]

theorem consolidate_topics_bootstrap (o : Oracle) (st : TopicConsolidator)
    (nt : List String) (h1 : ¬ nt.isEmpty) (h2 : st.canonical_topics.isEmpty) :
    consolidate_topics o st nt =
      ⟨update_taxonomy st (create_initial_taxonomy (o.initial nt) nt),
       create_initial_taxonomy (o.initial nt) nt, [], true⟩ := by
  simp [consolidate_topics, h1, h2]

theorem consolidate_topics_incremental (o : Oracle) (st : TopicConsolidator)
    (nt : List String) (h1 : ¬ nt.isEmpty)
    (h2 : ¬ st.canonical_topics.isEmpty) :
    consolidate_topics o st nt = nt.foldl (incStep o) ⟨st, [], [], false⟩ := by
  simp [consolidate_topics, h1, h2]

/-! ### The store invariant and reachability -/

theorem StInv_insert (st : TopicConsolidator) (a c : String)
    (h : StInv st) (ha : a ∉ dkeys st.topic_mapping) :
    StInv ⟨ainsert a c st.topic_mapping, sinsert c st.canonical_topics⟩ := by
  intro x
  show x ∈ sinsert c st.canonical_topics ↔
    x ∈ dvalues (ainsert a c st.topic_mapping)
  rw [ainsert_of_not_mem_keys a c _ ha, mem_sinsert]
  have hdv : dvalues (st.topic_mapping ++ [(a, c)]) =
      dvalues st.topic_mapping ++ [c] := by
    simp [dvalues]
  rw [hdv, List.mem_append, h x]
  simp only [List.mem_singleton]
  tauto

theorem incStep_StInv (o : Oracle) (acc : ConsolidateResult) (a : String)
    (h : StInv acc.state) : StInv (incStep o acc a).state := by
  cases hl : alookup acc.state.topic_mapping a with
  | some c => simpa [incStep, hl] using h
  | none =>
      have hmem : a ∉ dkeys acc.state.topic_mapping :=
        (alookup_eq_none_iff _ _).1 hl
      simpa [incStep, hl] using
        StInv_insert acc.state a
          (find_canonical_topic acc.state.canonical_topics
            (o.find a acc.state.canonical_topics) a) h hmem

theorem foldl_StInv (o : Oracle) (l : List String) :
    ∀ (acc : ConsolidateResult), StInv acc.state →
      StInv ((l.foldl (incStep o) acc).state) := by
  induction l with
  | nil => intro acc h; simpa using h
  | cons a rest ih =>
      intro acc h
      rw [List.foldl_cons]
      exact ih _ (incStep_StInv o acc a h)

theorem tm_eq_nil_of_StInv_of_canonical_nil (st : TopicConsolidator)
    (h : StInv st) (hc : st.canonical_topics = []) :
    st.topic_mapping = [] := by
  cases htm : st.topic_mapping with
  | nil => rfl
  | cons kv rest =>
      exfalso
      have : kv.2 ∈ dvalues st.topic_mapping := by
        simp [dvalues, htm]
      have := (h kv.2).2 this
      simp [hc] at this

theorem reachable_StInv (st : TopicConsolidator) (h : Reachable st) :
    StInv st := by
  induction h with
  | init => intro c; simp [initState, dvalues]
  | step st o batch hwf _ ih =>
      by_cases hb : batch.isEmpty
      · rw [consolidate_topics_empty o st batch hb]
        exact ih
      · by_cases hc : st.canonical_topics.isEmpty
        · rw [consolidate_topics_bootstrap o st batch hb hc]
          have hcan : st.canonical_topics = [] := by
            simpa using hc
          have htm : st.topic_mapping = [] :=
            tm_eq_nil_of_StInv_of_canonical_nil st ih hcan
          have hnd : NodupKeys (create_initial_taxonomy (o.initial batch) batch) := by
            cases hresp : o.initial batch with
            | none =>
                rw [create_initial_taxonomy_none batch hb]
                exact nodupKeys_identityMapping batch
            | some d =>
                rw [create_initial_taxonomy_some batch d hb]
                exact hwf batch d hresp
          intro x
          rw [mem_canonical_update_taxonomy]
          rw [update_taxonomy_mapping_of_disjoint _ _ hnd
            (by simp [htm, dkeys])]
          simp [hcan, htm]
        · rw [consolidate_topics_incremental o st batch hb hc]
          exact foldl_StInv o batch ⟨st, [], [], false⟩ ih

theorem reachable_tm_nil_of_canonical_nil (st : TopicConsolidator)
    (h : Reachable st) (hc : st.canonical_topics = []) :
    st.topic_mapping = [] :=
  tm_eq_nil_of_StInv_of_canonical_nil st (reachable_StInv st h) hc

/-! ### Value and call-tracking invariants of the incremental loop -/

theorem incStep_values_canonical (o : Oracle) (acc : ConsolidateResult)
    (a : String)
    (h1 : ∀ v ∈ dvalues acc.state.topic_mapping, v ∈ acc.state.canonical_topics)
    (h2 : ∀ kv ∈ acc.mapping, kv.2 ∈ acc.state.canonical_topics) :
    (∀ v ∈ dvalues (incStep o acc a).state.topic_mapping,
        v ∈ (incStep o acc a).state.canonical_topics) ∧
    (∀ kv ∈ (incStep o acc a).mapping,
        kv.2 ∈ (incStep o acc a).state.canonical_topics) := by
  cases hl : alookup acc.state.topic_mapping a with
  | some c =>
      constructor
      · intro v hv
        simp only [incStep, hl] at hv ⊢
        exact h1 v hv
      · intro kv hkv
        simp only [incStep, hl] at hkv ⊢
        rcases mem_ainsert a c acc.mapping kv hkv with he | hm
        · subst he
          exact h1 c (mem_dvalues_of_alookup _ a c hl)
        · exact h2 kv hm
  | none =>
      have hmem : a ∉ dkeys acc.state.topic_mapping :=
        (alookup_eq_none_iff _ _).1 hl
      constructor
      · intro v hv
        simp only [incStep, hl] at hv ⊢
        rw [ainsert_of_not_mem_keys a _ _ hmem] at hv
        simp [dvalues] at hv
        rcases hv with hv | hv
        · rcases hv with ⟨k, hk⟩
          exact mem_sinsert_of_mem _ _ v
            (h1 v (List.mem_map.2 ⟨(k, v), hk, rfl⟩))
        · subst hv
          exact self_mem_sinsert _ _
      · intro kv hkv
        simp only [incStep, hl] at hkv ⊢
        rcases mem_ainsert a _ acc.mapping kv hkv with he | hm
        · subst he
          exact self_mem_sinsert _ _
        · exact mem_sinsert_of_mem _ _ _ (h2 kv hm)

theorem foldl_values_canonical (o : Oracle) (l : List String) :
    ∀ (acc : ConsolidateResult),
      (∀ v ∈ dvalues acc.state.topic_mapping,
        v ∈ acc.state.canonical_topics) →
      (∀ kv ∈ acc.mapping, kv.2 ∈ acc.state.canonical_topics) →
      ∀ kv ∈ (l.foldl (incStep o) acc).mapping,
        kv.2 ∈ (l.foldl (incStep o) acc).state.canonical_topics := by
  induction l with
  | nil => intro acc _ h2; simpa using h2
  | cons a rest ih =>
      intro acc h1 h2
      rw [List.foldl_cons]
      have := incStep_values_canonical o acc a h1 h2
      exact ih _ this.1 this.2

theorem incStep_self_entry (o : Oracle) (acc : ConsolidateResult)
    (a t : String)
    (h : alookup acc.state.topic_mapping t = some t ∧
      alookup acc.mapping t = some t) :
    alookup (incStep o acc a).state.topic_mapping t = some t ∧
      alookup (incStep o acc a).mapping t = some t := by
  obtain ⟨htm, hmap⟩ := h
  cases hl : alookup acc.state.topic_mapping a with
  | some c =>
      by_cases hat : a = t
      · subst hat
        rw [hl] at htm
        have hc : c = a := by injection htm
        subst hc
        simp [incStep, hl, alookup_ainsert, htm]
      · simp [incStep, hl, alookup_ainsert, hat, htm, hmap]
  | none =>
      by_cases hat : a = t
      · subst hat
        rw [hl] at htm
        exact absurd htm (by simp)
      · simp [incStep, hl, alookup_ainsert, hat, htm, hmap]

theorem foldl_self_entry (o : Oracle) (l : List String) (t : String) :
    ∀ (acc : ConsolidateResult),
      alookup acc.state.topic_mapping t = some t →
      alookup acc.mapping t = some t →
      alookup ((l.foldl (incStep o) acc)).state.topic_mapping t = some t ∧
        alookup ((l.foldl (incStep o) acc)).mapping t = some t := by
  induction l with
  | nil => intro acc h1 h2; simpa using ⟨h1, h2⟩
  | cons a rest ih =>
      intro acc h1 h2
      rw [List.foldl_cons]
      have := incStep_self_entry o acc a t ⟨h1, h2⟩
      exact ih _ this.1 this.2

theorem incStep_no_findCall (o : Oracle) (acc : ConsolidateResult)
    (a t c : String)
    (h1 : alookup acc.state.topic_mapping t = some c)
    (h2 : t ∉ acc.findCalls) :
    alookup (incStep o acc a).state.topic_mapping t = some c ∧
      t ∉ (incStep o acc a).findCalls := by
  refine ⟨incStep_tm_preserved o acc a t c h1, ?_⟩
  cases hl : alookup acc.state.topic_mapping a with
  | some cc => simpa [incStep, hl] using h2
  | none =>
      by_cases hat : a = t
      · subst hat
        rw [hl] at h1
        exact absurd h1 (by simp)
      · simp [incStep, hl, h2]
        intro hcallmade
        exact fun h => hat h.symm

theorem foldl_no_findCall (o : Oracle) (l : List String) :
    ∀ (acc : ConsolidateResult) (t c : String),
      alookup acc.state.topic_mapping t = some c →
      t ∉ acc.findCalls →
      t ∉ (l.foldl (incStep o) acc).findCalls := by
  induction l with
  | nil => intro acc t c _ h2; simpa using h2
  | cons a rest ih =>
      intro acc t c h1 h2
      rw [List.foldl_cons]
      have := incStep_no_findCall o acc a t c h1 h2
      exact ih _ t c this.1 this.2

/-! ### Well-formedness of the concrete oracles -/

theorem failingOracle_wf : WFOracle failingOracle := by
  intro ts d h
  simp [failingOracle] at h

theorem zOracle_wf : WFOracle zOracle := by
  intro ts d h
  simp [zOracle] at h

theorem matchCOracle_wf : WFOracle matchCOracle := by
  intro ts d h
  simp [matchCOracle] at h

theorem hallucinatingOracle_wf : WFOracle hallucinatingOracle := by
  intro ts d h
  simp [hallucinatingOracle] at h
  rw [← h]
  simp [NodupKeys, dkeys]

theorem bootPairOracle_wf : WFOracle bootPairOracle := by
  intro ts d h
  simp [bootPairOracle] at h
  rw [← h]
  simp [NodupKeys, dkeys]

theorem create_initial_taxonomy_nodup (o : Oracle) (hwf : WFOracle o)
    (batch : List String) (hb : ¬ batch.isEmpty) :
    NodupKeys (create_initial_taxonomy (o.initial batch) batch) := by
  cases hresp : o.initial batch with
  | none =>
      rw [create_initial_taxonomy_none batch hb]
      exact nodupKeys_identityMapping batch
  | some d =>
      rw [create_initial_taxonomy_some batch d hb]
      exact hwf batch d hresp

/-! ### Claim C4: bootstrap fallback to the identity mapping -/

/-- Claim C4: if the canonical set is empty (bootstrap) and the Semantic
Matcher fails on the first batch, `consolidate_topics` returns the
identity mapping over the batch and the canonical-topics set afterwards
consists exactly of the batch's topics. -/
theorem consolidate_bootstrap_fallback (o : Oracle) (st : TopicConsolidator)
    (batch : List String) (hc : st.canonical_topics = [])
    (hfail : o.initial batch = none) :
    (∀ x, alookup (consolidate_topics o st batch).mapping x =
      if x ∈ batch then some x else none) ∧
    (∀ x, x ∈ (consolidate_topics o st batch).state.canonical_topics ↔
      x ∈ batch) := by
  by_cases hb : batch.isEmpty
  · have hnil : batch = [] := by simpa using hb
    subst hnil
    rw [consolidate_topics_empty o st [] (by simp)]
    simp [alookup, hc]
  · rw [consolidate_topics_bootstrap o st batch hb (by simp [hc])]
    have hmap : create_initial_taxonomy (o.initial batch) batch =
        identityMapping batch := by
      rw [hfail, create_initial_taxonomy_none batch hb]
    constructor
    · intro x
      show alookup (create_initial_taxonomy (o.initial batch) batch) x = _
      rw [hmap]
      exact alookup_identityMapping batch x
    · intro x
      show x ∈ (update_taxonomy st
        (create_initial_taxonomy (o.initial batch) batch)).canonical_topics ↔ _
      rw [hmap, mem_canonical_update_taxonomy]
      simp [hc, mem_dvalues_identityMapping]

theorem consolidate_bootstrap_fallback_witness :
    initState.canonical_topics = [] ∧
    failingOracle.initial ["A", "B"] = none ∧
    alookup (consolidate_topics failingOracle initState ["A", "B"]).mapping "A" =
      some "A" ∧
    alookup (consolidate_topics failingOracle initState ["A", "B"]).mapping "B" =
      some "B" ∧
    ("B" ∈ (consolidate_topics failingOracle initState ["A", "B"]).state.canonical_topics ↔
      "B" ∈ (["A", "B"] : List String)) := by
  have h := consolidate_bootstrap_fallback failingOracle initState ["A", "B"]
    rfl rfl
  refine ⟨rfl, rfl, ?_, ?_, h.2 "B"⟩
  · have := h.1 "A"
    simpa using this
  · have := h.1 "B"
    simpa using this

/-! ### Claim C7: re-recording an existing raw topic -/

/-- Claim C7 (amended): an attempt to record an already-recorded raw topic
with a different canonical value does not fail — `_update_taxonomy`
silently overwrites the existing entry (last write wins) and returns
normally. -/
theorem update_taxonomy_overwrites (st : TopicConsolidator) (k v w : String)
    (hrec : alookup st.topic_mapping k = some w) (hne : w ≠ v) :
    alookup (update_taxonomy st [(k, v)]).topic_mapping k = some v := by
  show alookup (ainsert k v st.topic_mapping) k = some v
  rw [alookup_ainsert]
  simp

theorem update_taxonomy_overwrites_witness :
    alookup (⟨[("a", "b")], ["b"]⟩ : TopicConsolidator).topic_mapping "a" =
      some "b" ∧
    alookup (update_taxonomy ⟨[("a", "b")], ["b"]⟩
      [("a", "c")]).topic_mapping "a" = some "c" :=
  ⟨by decide,
   update_taxonomy_overwrites ⟨[("a", "b")], ["b"]⟩ "a" "c" "b"
     (by decide) (by decide)⟩

/-- Claim C7 counterexample: re-recording `"a"` (currently mapped to
`"b"`) with the different canonical value `"c"` does not fail: the call
returns normally and the entry is silently overwritten to `"c"`. -/
theorem update_taxonomy_no_fault_counterexample :
    alookup (update_taxonomy ⟨[("a", "b")], ["b"]⟩
      [("a", "c")]).topic_mapping "a" = some "c" ∧
    (some "c" : Option String) ≠ some "b" := by
  constructor
  · decide
  · decide

/-! ### Claim C5: monotone growth of the taxonomy store -/

/-- Claim C5: across any sequence of `consolidate_topics` calls from the
initial state, with any oracle behaviour, `topic_mapping` and
`canonical_topics` grow monotonically: a recorded raw topic keeps its
canonical value forever, and no canonical topic is ever removed. -/
theorem consolidate_monotone (o : Oracle) (st : TopicConsolidator)
    (batch : List String) (hst : Reachable st) :
    (∀ k c, alookup st.topic_mapping k = some c →
      alookup (consolidate_topics o st batch).state.topic_mapping k = some c) ∧
    (∀ x ∈ st.canonical_topics,
      x ∈ (consolidate_topics o st batch).state.canonical_topics) := by
  by_cases hb : batch.isEmpty
  · rw [consolidate_topics_empty o st batch hb]
    exact ⟨fun k c h => h, fun x h => h⟩
  · by_cases hc : st.canonical_topics.isEmpty
    · have hcan : st.canonical_topics = [] := by simpa using hc
      have htm := reachable_tm_nil_of_canonical_nil st hst hcan
      constructor
      · intro k c h
        rw [htm] at h
        simp [alookup] at h
      · intro x hx
        rw [hcan] at hx
        simp at hx
    · rw [consolidate_topics_incremental o st batch hb hc]
      exact ⟨fun k c h => foldl_tm_preserved o batch _ k c h,
             fun x hx => foldl_canonical_mono o batch _ x hx⟩

theorem consolidate_monotone_witness :
    alookup stIdA.topic_mapping "A" = some "A" ∧
    alookup (consolidate_topics zOracle stIdA ["B"]).state.topic_mapping "A" =
      some "A" ∧
    ("A" ∈ stIdA.canonical_topics) ∧
    "A" ∈ (consolidate_topics zOracle stIdA ["B"]).state.canonical_topics := by
  have hreach : Reachable stIdA :=
    Reachable.step initState failingOracle ["A"] failingOracle_wf Reachable.init
  have h := consolidate_monotone zOracle stIdA ["B"] hreach
  exact ⟨by decide, h.1 "A" "A" (by decide), by decide, h.2 "A" (by decide)⟩

/-! ### Claim C6: the canonical set is covered by the mapping's range -/

/-- Claim C6: after every `consolidate_topics` call from the initial
state, every canonical topic occurs among the values of
`topic_mapping`. -/
theorem canonical_subset_range (st : TopicConsolidator) (hst : Reachable st) :
    ∀ x ∈ st.canonical_topics, x ∈ dvalues st.topic_mapping :=
  fun x hx => (reachable_StInv st hst x).1 hx

theorem canonical_subset_range_witness :
    "A" ∈ stIdA.canonical_topics ∧ "A" ∈ dvalues stIdA.topic_mapping := by
  have hreach : Reachable stIdA :=
    Reachable.step initState failingOracle ["A"] failingOracle_wf Reachable.init
  exact ⟨by decide, canonical_subset_range stIdA hreach "A" (by decide)⟩

/-! ### Claim C3: matcher malfunction is overridden to a new concept -/

/-- Claim C3: in the incremental case, for a new raw topic `t` (processed
at any position of the batch), if the Semantic Matcher fails or its
cleaned answer is neither a member of the current canonical set nor equal
to `t`, then `consolidate_topics` records `t -> t` — the out-of-domain
answer is never recorded. -/
theorem incremental_malfunction_override (o : Oracle)
    (st : TopicConsolidator) (pre post : List String) (t : String)
    (hc : ¬ st.canonical_topics.isEmpty)
    (hnew : alookup (List.foldl (incStep o)
      ⟨st, [], [], false⟩ pre).state.topic_mapping t = none)
    (hbad : o.find t (List.foldl (incStep o)
        ⟨st, [], [], false⟩ pre).state.canonical_topics = none ∨
      ∃ s, o.find t (List.foldl (incStep o)
          ⟨st, [], [], false⟩ pre).state.canonical_topics = some s ∧
        cleanResponse s ∉ (List.foldl (incStep o)
          ⟨st, [], [], false⟩ pre).state.canonical_topics ∧
        cleanResponse s ≠ t) :
    alookup (consolidate_topics o st
      (pre ++ t :: post)).state.topic_mapping t = some t ∧
    alookup (consolidate_topics o st (pre ++ t :: post)).mapping t = some t := by
  have hb : ¬ (pre ++ t :: post).isEmpty := by simp
  rw [consolidate_topics_incremental o st _ hb hc, List.foldl_append,
    List.foldl_cons]
  set s1 := List.foldl (incStep o) ⟨st, [], [], false⟩ pre with hs1
  have hfct : find_canonical_topic s1.state.canonical_topics
      (o.find t s1.state.canonical_topics) t = t := by
    unfold find_canonical_topic
    by_cases hemp : s1.state.canonical_topics.isEmpty
    · simp [hemp]
    · rcases hbad with hfail | ⟨s, hs, hnotin, hne⟩
      · simp [hemp, hfail]
      · simp [hemp, hs, hnotin, hne]
  have hstep : alookup (incStep o s1 t).state.topic_mapping t = some t ∧
      alookup (incStep o s1 t).mapping t = some t := by
    simp [incStep, hnew, hfct, alookup_ainsert]
  exact foldl_self_entry o post t _ hstep.1 hstep.2

theorem incremental_malfunction_override_witness :
    cleanResponse "Z" ∉ (⟨[], ["X"]⟩ : TopicConsolidator).canonical_topics ∧
    cleanResponse "Z" ≠ "Y" ∧
    alookup (consolidate_topics zOracle ⟨[], ["X"]⟩
      ["Y"]).state.topic_mapping "Y" = some "Y" ∧
    alookup (consolidate_topics zOracle ⟨[], ["X"]⟩ ["Y"]).mapping "Y" =
      some "Y" := by
  have h := incremental_malfunction_override zOracle ⟨[], ["X"]⟩ [] [] "Y"
    (by decide) (by decide) (Or.inr ⟨"Z", rfl, by decide, by decide⟩)
  exact ⟨by decide, by decide, by simpa using h.1, by simpa using h.2⟩

/-! ### Claim C1: no second oracle call for an already-recorded topic -/

theorem consolidate_mapping_agrees (o : Oracle) (st : TopicConsolidator)
    (batch : List String) (hst : Reachable st) (hwf : WFOracle o)
    (t : String) (ht : t ∈ batch) :
    alookup (consolidate_topics o st batch).mapping t =
      alookup (consolidate_topics o st batch).state.topic_mapping t := by
  have hb : ¬ batch.isEmpty := by
    cases batch
    · simp at ht
    · simp
  by_cases hc : st.canonical_topics.isEmpty
  · have hcan : st.canonical_topics = [] := by simpa using hc
    have htm := reachable_tm_nil_of_canonical_nil st hst hcan
    rw [consolidate_topics_bootstrap o st batch hb hc]
    show alookup (create_initial_taxonomy (o.initial batch) batch) t =
      alookup (update_taxonomy st
        (create_initial_taxonomy (o.initial batch) batch)).topic_mapping t
    rw [update_taxonomy_mapping_of_disjoint _ st
      (create_initial_taxonomy_nodup o hwf batch hb) (by simp [htm, dkeys])]
    rw [htm, List.nil_append]
  · rw [consolidate_topics_incremental o st batch hb hc]
    have hkeys := (foldl_mapping_keys o batch ⟨st, [], [], false⟩ t).2
      (Or.inr ht)
    exact foldl_mapping_agrees o batch _
      (by intro k hk; simp [dkeys] at hk) t hkeys

/-- Claim C1 (amended): for two consecutive `consolidate_topics` calls
whose batches both contain the raw topic `t`, provided the first call
leaves `t` recorded in `topic_mapping` (which can fail to happen only when
the bootstrap oracle's mapping omits `t`), the second call issues no
Semantic Matcher call at all for `t` — no bootstrap prompt and no
single-topic prompt — and both calls return the same recorded canonical
value for `t`. -/
theorem consolidate_no_second_oracle_call (o1 o2 : Oracle)
    (st0 : TopicConsolidator) (batch1 batch2 : List String) (t c : String)
    (hst : Reachable st0) (hwf1 : WFOracle o1)
    (ht1 : t ∈ batch1) (ht2 : t ∈ batch2)
    (hrec : alookup
      (consolidate_topics o1 st0 batch1).state.topic_mapping t = some c) :
    alookup (consolidate_topics o1 st0 batch1).mapping t = some c ∧
    t ∉ (consolidate_topics o2
      (consolidate_topics o1 st0 batch1).state batch2).findCalls ∧
    (consolidate_topics o2
      (consolidate_topics o1 st0 batch1).state batch2).initialCalled = false ∧
    alookup (consolidate_topics o2
      (consolidate_topics o1 st0 batch1).state batch2).mapping t = some c := by
  have h1 : alookup (consolidate_topics o1 st0 batch1).mapping t = some c := by
    rw [consolidate_mapping_agrees o1 st0 batch1 hst hwf1 t ht1]
    exact hrec
  have hreach1 : Reachable (consolidate_topics o1 st0 batch1).state :=
    Reachable.step st0 o1 batch1 hwf1 hst
  have hb2 : ¬ batch2.isEmpty := by
    cases batch2
    · simp at ht2
    · simp
  have hc1 : ¬ (consolidate_topics o1 st0 batch1).state.canonical_topics.isEmpty := by
    intro hemp
    have hcan : (consolidate_topics o1 st0 batch1).state.canonical_topics = [] := by
      simpa using hemp
    have htm := reachable_tm_nil_of_canonical_nil _ hreach1 hcan
    rw [htm] at hrec
    simp [alookup] at hrec
  rw [consolidate_topics_incremental o2 _ batch2 hb2 hc1]
  refine ⟨h1, ?_, ?_, ?_⟩
  · exact foldl_no_findCall o2 batch2 _ t c hrec (by simp)
  · rw [foldl_initialCalled]
  · have hkeys := (foldl_mapping_keys o2 batch2
      ⟨(consolidate_topics o1 st0 batch1).state, [], [], false⟩ t).2 (Or.inr ht2)
    rw [foldl_mapping_agrees o2 batch2 _
      (by intro k hk; simp [dkeys] at hk) t hkeys]
    exact foldl_tm_preserved o2 batch2 _ t c hrec

theorem consolidate_no_second_oracle_call_witness :
    alookup (consolidate_topics failingOracle initState ["A"]).mapping "A" =
      some "A" ∧
    "A" ∉ (consolidate_topics zOracle
      (consolidate_topics failingOracle initState ["A"]).state ["A"]).findCalls ∧
    (consolidate_topics zOracle
      (consolidate_topics failingOracle initState ["A"]).state
        ["A"]).initialCalled = false ∧
    alookup (consolidate_topics zOracle
      (consolidate_topics failingOracle initState ["A"]).state ["A"]).mapping "A" =
      some "A" :=
  consolidate_no_second_oracle_call failingOracle zOracle initState
    ["A"] ["A"] "A" "A" Reachable.init failingOracle_wf
    (by decide) (by decide) (by decide)

/-- Claim C1 counterexample: both batches are `{"A"}`, yet because the
bootstrap oracle answered `{"B": "C"}` — omitting `"A"` — the first call
returns no canonical value for `"A"` at all, and the second call does
issue a Semantic Matcher call for `"A"`. -/
theorem consolidate_second_call_counterexample :
    alookup (consolidate_topics hallucinatingOracle initState ["A"]).mapping "A" =
      none ∧
    "A" ∈ (consolidate_topics zOracle stHallu ["A"]).findCalls := by
  constructor
  · decide
  · decide

/-! ### Claim C2: totality of the returned mapping -/

/-- Claim C2 (amended): for a non-empty batch, provided the call is
incremental (canonical set non-empty), or the bootstrap oracle fails, or
the bootstrap oracle's mapping has exactly the batch's topics as keys,
the returned mapping has exactly one entry per distinct raw topic of the
batch, and every one of its values is in the canonical-topics set after
the call.  (The unvalidated bootstrap response can otherwise return a
mapping whose keys differ from the batch.) -/
theorem consolidate_totality (o : Oracle) (st : TopicConsolidator)
    (batch : List String) (hst : Reachable st) (hwf : WFOracle o)
    (hb : ¬ batch.isEmpty)
    (hcase : ¬ st.canonical_topics.isEmpty ∨ o.initial batch = none ∨
      ∃ d, o.initial batch = some d ∧ (∀ k, k ∈ dkeys d ↔ k ∈ batch)) :
    NodupKeys (consolidate_topics o st batch).mapping ∧
    (∀ k, k ∈ dkeys (consolidate_topics o st batch).mapping ↔ k ∈ batch) ∧
    (∀ kv ∈ (consolidate_topics o st batch).mapping,
      kv.2 ∈ (consolidate_topics o st batch).state.canonical_topics) := by
  by_cases hc : st.canonical_topics.isEmpty
  · rw [consolidate_topics_bootstrap o st batch hb hc]
    have hval : ∀ kv ∈ create_initial_taxonomy (o.initial batch) batch,
        kv.2 ∈ (update_taxonomy st
          (create_initial_taxonomy (o.initial batch) batch)).canonical_topics := by
      intro kv hkv
      rw [mem_canonical_update_taxonomy]
      exact Or.inr (List.mem_map.2 ⟨kv, hkv, rfl⟩)
    rcases hcase with hcontra | hfail | ⟨d, hd, hcov⟩
    · exact absurd hc hcontra
    · have hmap : create_initial_taxonomy (o.initial batch) batch =
          identityMapping batch := by
        rw [hfail, create_initial_taxonomy_none batch hb]
      refine ⟨?_, ?_, hval⟩
      · show NodupKeys (create_initial_taxonomy (o.initial batch) batch)
        rw [hmap]
        exact nodupKeys_identityMapping batch
      · intro k
        show k ∈ dkeys (create_initial_taxonomy (o.initial batch) batch) ↔ _
        rw [hmap]
        have := mem_dkeys_foldl_ainsert batch [] k
        simpa [identityMapping, dkeys] using this
    · have hmap : create_initial_taxonomy (o.initial batch) batch = d := by
        rw [hd, create_initial_taxonomy_some batch d hb]
      refine ⟨?_, ?_, hval⟩
      · show NodupKeys (create_initial_taxonomy (o.initial batch) batch)
        rw [hmap]
        exact hwf batch d hd
      · intro k
        show k ∈ dkeys (create_initial_taxonomy (o.initial batch) batch) ↔ _
        rw [hmap]
        exact hcov k
  · rw [consolidate_topics_incremental o st batch hb hc]
    have hSt := reachable_StInv st hst
    refine ⟨foldl_mapping_nodup o batch _ (by simp [NodupKeys, dkeys]), ?_, ?_⟩
    · intro k
      rw [foldl_mapping_keys]
      simp [dkeys]
    · exact foldl_values_canonical o batch ⟨st, [], [], false⟩
        (fun v hv => (hSt v).2 hv) (by intro kv hkv; simp at hkv)

theorem consolidate_totality_witness :
    NodupKeys (consolidate_topics failingOracle initState ["A", "B"]).mapping ∧
    ("A" ∈ dkeys (consolidate_topics failingOracle initState
      ["A", "B"]).mapping ↔ "A" ∈ (["A", "B"] : List String)) ∧
    ("C" ∈ dkeys (consolidate_topics failingOracle initState
      ["A", "B"]).mapping ↔ "C" ∈ (["A", "B"] : List String)) := by
  have h := consolidate_totality failingOracle initState ["A", "B"]
    Reachable.init failingOracle_wf (by decide) (Or.inr (Or.inl rfl))
  exact ⟨h.1, h.2.1 "A", h.2.1 "C"⟩

/-- Claim C2 counterexample: on the first batch `{"A"}` the bootstrap
oracle's parsed response `{"B": "C"}` is recorded unvalidated, so the
returned mapping has no entry for the batch topic `"A"` and instead has
an entry for `"B"`, which is not in the batch. -/
theorem consolidate_totality_counterexample :
    alookup (consolidate_topics hallucinatingOracle initState ["A"]).mapping "A" =
      none ∧
    alookup (consolidate_topics hallucinatingOracle initState ["A"]).mapping "B" =
      some "C" := by
  constructor
  · decide
  · decide

/-! ### Lemmas about `apply_mapping` -/

theorem applyRecord_mkExtractionRecord (m : Dict) (rid : PyVal)
    (ts : List String) (c0 r0 : PyVal) :
    applyRecord m (mkExtractionRecord rid ts c0 r0) =
      some (mkExtractionRecord rid (ts.map (mapTopic m)) c0 r0) := rfl

theorem applyRecord_shape (m : Dict) (r r' : Rec)
    (happ : applyRecord m r = some r') :
    ∃ rid ts, rlookup r "review_id" = some rid ∧
      rlookup r "topics" = some (PyVal.strList ts) ∧
      r' = mkExtractionRecord rid (ts.map (mapTopic m))
        ((rlookup r "content").getD (PyVal.str ""))
        ((rlookup r "reasoning").getD (PyVal.str "")) := by
  unfold applyRecord at happ
  cases hts : rlookup r "topics" with
  | none =>
      rw [hts] at happ
      simp at happ
  | some v =>
      cases v with
      | str s =>
          rw [hts] at happ
          simp at happ
      | strList ts =>
          rw [hts] at happ
          cases hrid : rlookup r "review_id" with
          | none =>
              rw [hrid] at happ
              simp at happ
          | some rid =>
              rw [hrid] at happ
              simp at happ
              exact ⟨rid, ts, rfl, rfl, happ.symm⟩

theorem mapTopic_idem (m : Dict) (h : SelfMapped m) (t : String) :
    mapTopic m (mapTopic m t) = mapTopic m t := by
  cases hl : alookup m t with
  | none => simp [mapTopic, hl]
  | some c =>
      have hmem : (t, c) ∈ m := mem_of_alookup_eq_some m t c hl
      rcases h (t, c) hmem with hself | hnone
      · simp [mapTopic, hl, hself]
      · simp [mapTopic, hl, hnone]

theorem applyRecord_idem (m : Dict) (h : SelfMapped m) (r r' : Rec)
    (happ : applyRecord m r = some r') : applyRecord m r' = some r' := by
  obtain ⟨rid, ts, hrid, hts, hshape⟩ := applyRecord_shape m r r' happ
  subst hshape
  rw [applyRecord_mkExtractionRecord]
  have hmaps : (ts.map (mapTopic m)).map (mapTopic m) = ts.map (mapTopic m) := by
    rw [List.map_map]
    exact List.map_congr_left (fun a _ => mapTopic_idem m h a)
  rw [hmaps]

/-! ### Claim C8: `apply_mapping` rewrites topics and passes fields through -/

/-- Claim C8: for any sequence of extraction records (`review_id`,
`topics`, `content`, `reasoning`) and any topic mapping, `apply_mapping`
rewrites each record's topic list pointwise — a topic that is a key of the
mapping is replaced by its canonical value, any other topic is unchanged —
preserving order and length, while the other three fields pass through
unchanged.  (The embedding of `apply_mapping` is a pure function of the
mapping and the records: the method issues no Semantic Matcher call and
never mutates `topic_mapping` or `canonical_topics`.) -/
theorem apply_mapping_rewrites (m : Dict) (rs : List Rec)
    (h : ∀ r ∈ rs, ∃ rid ts c0 r0, r = mkExtractionRecord rid ts c0 r0) :
    ∃ rs', apply_mapping m rs = some rs' ∧
      List.Forall₂ (fun r r' => ∀ rid ts c0 r0,
        r = mkExtractionRecord rid ts c0 r0 →
          r' = mkExtractionRecord rid (ts.map (mapTopic m)) c0 r0 ∧
          (ts.map (mapTopic m)).length = ts.length ∧
          ∀ t ∈ ts, (t ∈ dkeys m → alookup m t = some (mapTopic m t)) ∧
            (t ∉ dkeys m → mapTopic m t = t)) rs rs' := by
  induction rs with
  | nil => exact ⟨[], rfl, List.Forall₂.nil⟩
  | cons r rest ih =>
      obtain ⟨rid, ts, c0, r0, hr⟩ := h r (by simp)
      obtain ⟨rest', hrest, hfa⟩ := ih (fun x hx => h x (by simp [hx]))
      refine ⟨mkExtractionRecord rid (ts.map (mapTopic m)) c0 r0 :: rest',
        ?_, ?_⟩
      · subst hr
        simp [apply_mapping, applyRecord_mkExtractionRecord, hrest]
      · refine List.Forall₂.cons ?_ hfa
        intro rid' ts' c0' r0' heq
        subst hr
        have hinj : rid = rid' ∧ ts = ts' ∧ c0 = c0' ∧ r0 = r0' := by
          simpa [mkExtractionRecord] using heq
        obtain ⟨h1, h2, h3, h4⟩ := hinj
        subst h1
        subst h2
        subst h3
        subst h4
        refine ⟨rfl, by simp, ?_⟩
        intro t _
        constructor
        · intro hk
          rcases alookup_isSome_of_mem_dkeys m t hk with ⟨v, hv⟩
          simp [mapTopic, hv]
        · intro hk
          have hnone := (alookup_eq_none_iff m t).2 hk
          simp [mapTopic, hnone]

theorem apply_mapping_rewrites_witness :
    apply_mapping [("slow app", "App is slow")]
      [mkExtractionRecord (PyVal.str "1") ["slow app", "other topic"]
        (PyVal.str "c") (PyVal.str "r")] =
      some [mkExtractionRecord (PyVal.str "1") ["App is slow", "other topic"]
        (PyVal.str "c") (PyVal.str "r")] := by
  obtain ⟨rs', hap, hfa⟩ := apply_mapping_rewrites [("slow app", "App is slow")]
    [mkExtractionRecord (PyVal.str "1") ["slow app", "other topic"]
      (PyVal.str "c") (PyVal.str "r")]
    (by
      intro r hr
      simp at hr
      exact ⟨_, _, _, _, hr⟩)
  rcases hfa with _ | ⟨hrel, hnil⟩
  cases hnil
  have hout := (hrel _ _ _ _ rfl).1
  rw [hap, hout]
  rfl

/-! ### Claim C9: idempotence of `apply_mapping` -/

/-- Claim C9 (amended): `apply_mapping` is idempotent for a fixed topic
mapping in which every value that also occurs as a key maps to itself
(`SelfMapped`).  The code does not guarantee `SelfMapped` for all
reachable mappings: a raw topic that is itself a canonical value may
later be mapped to a different canonical topic, and then reapplication
rewrites topics a second time (see the counterexample). -/
theorem apply_mapping_idempotent (m : Dict) (h : SelfMapped m)
    (rs rs' : List Rec) (happ : apply_mapping m rs = some rs') :
    apply_mapping m rs' = some rs' := by
  induction rs generalizing rs' with
  | nil =>
      simp [apply_mapping] at happ
      subst happ
      rfl
  | cons r rest ih =>
      unfold apply_mapping at happ
      cases h1 : applyRecord m r with
      | none => rw [h1] at happ; simp at happ
      | some r0 =>
          rw [h1] at happ
          cases h2 : apply_mapping m rest with
          | none => rw [h2] at happ; simp at happ
          | some rest0 =>
              rw [h2] at happ
              simp at happ
              rw [← happ]
              have hr0 := applyRecord_idem m h r r0 h1
              have hrest0 := ih rest0 h2
              simp [apply_mapping, hr0, hrest0]

theorem apply_mapping_idempotent_witness :
    apply_mapping [("a", "b"), ("b", "b")]
      [mkExtractionRecord (PyVal.str "1") ["b"] (PyVal.str "") (PyVal.str "")] =
      some [mkExtractionRecord (PyVal.str "1") ["b"]
        (PyVal.str "") (PyVal.str "")] :=
  apply_mapping_idempotent [("a", "b"), ("b", "b")] (by decide)
    [mkExtractionRecord (PyVal.str "1") ["a"] (PyVal.str "") (PyVal.str "")]
    [mkExtractionRecord (PyVal.str "1") ["b"] (PyVal.str "") (PyVal.str "")]
    (by decide)

/-- Claim C9 counterexample: after a bootstrap answering
`{"A": "B", "D": "C"}` and an incremental batch `{"B"}` matched to the
existing canonical topic `"C"`, the produced `topic_mapping` contains
`"A" -> "B"` and `"B" -> "C"`; applying `apply_mapping` twice to a record
with topic `"A"` yields `"C"`, not the `"B"` a single application
yields — so `apply_mapping` is not idempotent on this reachable
mapping. -/
theorem apply_mapping_not_idempotent_counterexample :
    (apply_mapping stChained.topic_mapping
      [mkExtractionRecord (PyVal.str "1") ["A"]
        (PyVal.str "") (PyVal.str "")]).bind
      (apply_mapping stChained.topic_mapping) ≠
    apply_mapping stChained.topic_mapping
      [mkExtractionRecord (PyVal.str "1") ["A"]
        (PyVal.str "") (PyVal.str "")] := by
  decide

/-! ### Claim C10: the emitted record has exactly the four fields -/

/-- Claim C10: every record emitted by `apply_mapping` has exactly the
four keys `review_id`, `topics`, `content`, `reasoning` (in that order);
any other key of the input record is dropped, and a missing `content` or
`reasoning` is emitted as the empty string. -/
theorem apply_mapping_field_shape (m : Dict) (rs rs' : List Rec)
    (happ : apply_mapping m rs = some rs') :
    List.Forall₂ (fun r r' =>
      r'.map Prod.fst = ["review_id", "topics", "content", "reasoning"] ∧
      (∀ k, k ∉ (["review_id", "topics", "content", "reasoning"] :
        List String) → rlookup r' k = none) ∧
      (rlookup r "content" = none →
        rlookup r' "content" = some (PyVal.str "")) ∧
      (rlookup r "reasoning" = none →
        rlookup r' "reasoning" = some (PyVal.str ""))) rs rs' := by
  induction rs generalizing rs' with
  | nil =>
      simp [apply_mapping] at happ
      subst happ
      exact List.Forall₂.nil
  | cons r rest ih =>
      unfold apply_mapping at happ
      cases h1 : applyRecord m r with
      | none => rw [h1] at happ; simp at happ
      | some r0 =>
          rw [h1] at happ
          cases h2 : apply_mapping m rest with
          | none => rw [h2] at happ; simp at happ
          | some rest0 =>
              rw [h2] at happ
              simp at happ
              rw [← happ]
              refine List.Forall₂.cons ?_ (ih rest0 h2)
              obtain ⟨rid, ts, hrid, hts, hshape⟩ :=
                applyRecord_shape m r r0 h1
              subst hshape
              refine ⟨rfl, ?_, ?_, ?_⟩
              · intro k hk
                simp at hk
                obtain ⟨hk1, hk2, hk3, hk4⟩ := hk
                have e1 : ¬ ("review_id" = k) := fun he => hk1 he.symm
                have e2 : ¬ ("topics" = k) := fun he => hk2 he.symm
                have e3 : ¬ ("content" = k) := fun he => hk3 he.symm
                have e4 : ¬ ("reasoning" = k) := fun he => hk4 he.symm
                simp [mkExtractionRecord, rlookup, e1, e2, e3, e4]
              · intro hcn
                show some ((rlookup r "content").getD (PyVal.str "")) = _
                rw [hcn]
                rfl
              · intro hrn
                show some ((rlookup r "reasoning").getD (PyVal.str "")) = _
                rw [hrn]
                rfl

theorem apply_mapping_field_shape_witness :
    ([("review_id", PyVal.str "1"), ("topics", PyVal.strList []),
      ("content", PyVal.str ""), ("reasoning", PyVal.str "")] : Rec).map
        Prod.fst = ["review_id", "topics", "content", "reasoning"] ∧
    rlookup ([("review_id", PyVal.str "1"), ("topics", PyVal.strList []),
      ("content", PyVal.str ""), ("reasoning", PyVal.str "")] : Rec)
      "extra" = none ∧
    rlookup ([("review_id", PyVal.str "1"), ("topics", PyVal.strList []),
      ("content", PyVal.str ""), ("reasoning", PyVal.str "")] : Rec)
      "content" = some (PyVal.str "") := by
  have h := apply_mapping_field_shape []
    [[("review_id", PyVal.str "1"), ("topics", PyVal.strList []),
      ("extra", PyVal.str "z")]]
    [[("review_id", PyVal.str "1"), ("topics", PyVal.strList []),
      ("content", PyVal.str ""), ("reasoning", PyVal.str "")]]
    (by decide)
  rcases h with _ | ⟨hrel, _⟩
  exact ⟨hrel.1, hrel.2.1 "extra" (by decide), hrel.2.2.1 (by decide)⟩

end ReviewAnalyzer
